import Mathlib

/-! The header `ADLXVersion.h`.

A verification development for `adlx/include/ADLXVersion.h`: the four version
constants and the two stringification macros `STRING` and `STRING_EXPAND`.

The header is preprocessor text, so its meaning is given by macro replacement.
The embedding has three layers:

* the integer constants the four `ADLX_VER_*` macros denote;
* the header's `#define` directives, transcribed token by token;
* macro replacement (object-like macros, function-like macros, the `#`
  operator, argument pre-expansion, rescanning) run on that table.
-/

namespace ADLXVersion

/-! ## Version constants -/

/-- The value of `#define ADLX_VER_MAJOR 1`. -/
def ADLX_VER_MAJOR : Int := 1

/-- The value of `#define ADLX_VER_MINOR 2`. -/
def ADLX_VER_MINOR : Int := 2

/-- The value of `#define ADLX_VER_RELEASE 0`. -/
def ADLX_VER_RELEASE : Int := 0

/-- The value of `#define ADLX_VER_BUILD_NUM 72`. -/
def ADLX_VER_BUILD_NUM : Int := 72

/-- The version record of the data model, `major.minor.release.build`. The
header declares no record type of its own; the record groups the four
constants it defines. -/
structure Version where
  major : Int
  minor : Int
  release : Int
  build : Int
  deriving DecidableEq, Repr

/-- The version the header encodes. -/
def version : Version :=
  ⟨ADLX_VER_MAJOR, ADLX_VER_MINOR, ADLX_VER_RELEASE, ADLX_VER_BUILD_NUM⟩

/-! ## Preprocessing tokens -/

/-- The categories of preprocessing token that can occur in a macro argument
or a replacement list. -/
inductive TokenKind
  | identifier
  | ppNumber
  | characterConstant
  | stringLiteral
  | punctuator
  deriving DecidableEq, Repr

/-- A preprocessing token: its category, its spelling in the source text and
whether white space separates it from the token before it. -/
structure PPToken where
  kind : TokenKind
  spelling : String
  spaceBefore : Bool
  deriving DecidableEq, Repr

/-- An identifier token with no white space before it. -/
def ident (s : String) : PPToken := ⟨TokenKind.identifier, s, false⟩

/-- A pp-number token with no white space before it. -/
def number (s : String) : PPToken := ⟨TokenKind.ppNumber, s, false⟩

/-- A punctuator token with no white space before it. -/
def punct (s : String) : PPToken := ⟨TokenKind.punctuator, s, false⟩

/-- The string literal token spelled `"body"`. -/
def quoted (body : String) : PPToken :=
  ⟨TokenKind.stringLiteral, "\"" ++ body ++ "\"", false⟩

/-! ## The `#` operator -/

/-- Inside a string literal or character constant, `#` puts a backslash before
every double quote and every backslash. -/
def escapeChar (c : Char) : List Char :=
  if c = '"' ∨ c = '\\' then ['\\', c] else [c]

/-- The text one argument token contributes to the stringified argument. -/
def tokenText (t : PPToken) : String :=
  if t.kind = TokenKind.stringLiteral ∨ t.kind = TokenKind.characterConstant then
    String.mk (t.spelling.toList.flatMap escapeChar)
  else t.spelling

/-- The characters between the quotes of a stringified argument: the
spellings of its tokens, white space between two tokens reduced to one space,
white space before the first token dropped. -/
def stringifyBody : List PPToken → String
  | [] => ""
  | t :: ts =>
    tokenText t ++
      String.join (ts.map fun u => (if u.spaceBefore then " " else "") ++ tokenText u)

/-- The string literal `# a` produces for the argument `arg`; `sp` is the white
space flag of the `#` token, which the result takes over. -/
def stringify (sp : Bool) (arg : List PPToken) : PPToken :=
  ⟨TokenKind.stringLiteral, "\"" ++ stringifyBody arg ++ "\"", sp⟩

/-! ## Macro definitions -/

/-- A `#define` directive. `params = none` is an object-like macro,
`params = some ps` a function-like macro with parameter names `ps`. -/
structure MacroDef where
  name : String
  params : Option (List String)
  body : List PPToken
  deriving DecidableEq, Repr

/-- The `#define` directives of `ADLXVersion.h`, in source order. White space
around a replacement list is not part of it, so the first token of each
replacement carries no white space flag. -/
def ADLXVersion_h : List MacroDef :=
  [ ⟨"ADLX_VERSION_H", none, []⟩,
    ⟨"ADLX_VER_MAJOR", none, [number "1"]⟩,
    ⟨"ADLX_VER_MINOR", none, [number "2"]⟩,
    ⟨"ADLX_VER_RELEASE", none, [number "0"]⟩,
    ⟨"ADLX_VER_BUILD_NUM", none, [number "72"]⟩,
    ⟨"STRING", some ["a"], [punct "#", ident "a"]⟩,
    ⟨"STRING_EXPAND", some ["a"], [ident "STRING", punct "(", ident "a", punct ")"]⟩ ]

/-- The object-like macros that define a value: those with a non-empty
replacement list. This leaves out the include guard `ADLX_VERSION_H`. -/
def valueMacros (env : List MacroDef) : List MacroDef :=
  env.filter fun m => m.params = none ∧ m.body ≠ []

/-- The definition of the macro called `s`, if the table has one. -/
def lookup (env : List MacroDef) (s : String) : Option MacroDef :=
  env.find? fun m => m.name = s

/-! ## Macro replacement -/

/-- A token together with its hide set: the names of the macros whose
expansion produced it, which are not replaced again inside it. -/
structure HToken where
  tok : PPToken
  hide : List String
  deriving DecidableEq, Repr

/-- Replace the white space flag of a token. -/
def setSpace (sp : Bool) (t : HToken) : HToken :=
  ⟨⟨t.tok.kind, t.tok.spelling, sp⟩, t.hide⟩

/-- Put the replacement `repl` in front of `rest`. The first token of the
replacement takes over the white space flag `sp` of what it replaces; an empty
replacement leaves that white space to the token that follows. -/
def splice (sp : Bool) (repl rest : List HToken) : List HToken :=
  match repl, rest with
  | [], [] => []
  | [], t :: ts => setSpace (sp || t.tok.spaceBefore) t :: ts
  | r :: rs, _ => setSpace sp r :: rs ++ rest

/-- Add the names `hs` to the hide set of every token. -/
def addHide (hs : List String) (ts : List HToken) : List HToken :=
  ts.map fun t => ⟨t.tok, hs ++ t.hide⟩

/-- Read the arguments of a function-like macro invocation, starting right
after its opening parenthesis. `depth` counts the parentheses open inside the
current argument, `cur` is the argument read so far and `done` the arguments
already closed by a comma. On the matching `)` the result is the argument
list, the hide set of that `)` and the tokens after it; `none` when the
invocation is not closed. -/
def collectArgs : List HToken → Nat → List HToken → List (List HToken) →
    Option (List (List HToken) × List String × List HToken)
  | [], _, _, _ => none
  | t :: rest, depth, cur, done =>
    if t.tok.kind = TokenKind.punctuator ∧ t.tok.spelling = "(" then
      collectArgs rest (depth + 1) (cur ++ [t]) done
    else if t.tok.kind = TokenKind.punctuator ∧ t.tok.spelling = ")" then
      match depth with
      | 0 => some (done ++ [cur], t.hide, rest)
      | d + 1 => collectArgs rest d (cur ++ [t]) done
    else if t.tok.kind = TokenKind.punctuator ∧ t.tok.spelling = "," ∧ depth = 0 then
      collectArgs rest 0 [] (done ++ [cur])
    else
      collectArgs rest depth (cur ++ [t]) done

/-- Whether the number of arguments fits the parameter list. An invocation
`F()` of a macro without parameters has no argument. -/
def arityOk (ps : List String) (args : List (List HToken)) : Bool :=
  args.length = ps.length ∨ (ps = [] ∧ args = [[]])

/-- Parameter substitution in a replacement list. A parameter after `#` is
replaced by its argument stringified as written; any other parameter by its
argument completely macro-expanded (with `expandArg`). For an object-like
macro (`fp = none`) every token is copied. -/
def subst (expandArg : List HToken → Option (List HToken)) (fp : Option (List String))
    (args : List (List HToken)) : List PPToken → Option (List HToken)
  | [] => some []
  | t :: rest =>
    match fp with
    | none => (subst expandArg fp args rest).map fun out => ⟨t, []⟩ :: out
    | some ps =>
      if t.kind = TokenKind.punctuator ∧ t.spelling = "#" then
        match rest with
        | [] => none
        | p :: rest1 =>
          if p.kind = TokenKind.identifier ∧ p.spelling ∈ ps then
            (subst expandArg fp args rest1).map fun out =>
              ⟨stringify t.spaceBefore ((args.getD (ps.indexOf p.spelling) []).map fun h => h.tok),
                []⟩ :: out
          else none
      else if t.kind = TokenKind.identifier ∧ t.spelling ∈ ps then
        match expandArg (args.getD (ps.indexOf t.spelling) []) with
        | none => none
        | some a => (subst expandArg fp args rest).map fun out => splice t.spaceBefore a out
      else
        (subst expandArg fp args rest).map fun out => ⟨t, []⟩ :: out

/-- Macro replacement of a token sequence under the definitions `env`,
scanning from the left and rescanning every replacement together with the
tokens after it. `none` when the budget `fuel` of scanning steps is used up
or an invocation is malformed (not closed, wrong number of arguments). -/
def expand (env : List MacroDef) : Nat → List HToken → Option (List HToken)
  | _, [] => some []
  | 0, _ :: _ => none
  | fuel + 1, t :: rest =>
    if t.tok.kind = TokenKind.identifier ∧ t.tok.spelling ∉ t.hide then
      match lookup env t.tok.spelling with
      | none => (expand env fuel rest).map fun out => t :: out
      | some m =>
        match m.params with
        | none =>
          match subst (expand env fuel) none [] m.body with
          | none => none
          | some repl =>
            expand env fuel (splice t.tok.spaceBefore (addHide (m.name :: t.hide) repl) rest)
        | some ps =>
          match rest with
          | [] => some [t]
          | lp :: rest1 =>
            if lp.tok.kind = TokenKind.punctuator ∧ lp.tok.spelling = "(" then
              match collectArgs rest1 0 [] [] with
              | none => none
              | some (args, rpHide, rest2) =>
                if arityOk ps args then
                  match subst (expand env fuel) (some ps) args m.body with
                  | none => none
                  | some repl =>
                    expand env fuel
                      (splice t.tok.spaceBefore
                        (addHide (m.name :: t.hide.filter fun n => n ∈ rpHide) repl) rest2)
                else none
            else (expand env fuel rest).map fun out => t :: out
    else (expand env fuel rest).map fun out => t :: out

/-- Macro replacement of source tokens under the definitions of
`ADLXVersion.h`. -/
def preprocess (fuel : Nat) (ts : List PPToken) : Option (List PPToken) :=
  (expand ADLXVersion_h fuel (ts.map fun t => ⟨t, []⟩)).map fun out => out.map fun h => h.tok

/-- The source tokens `name(a)`. -/
def invocation (name : String) (a : List PPToken) : List PPToken :=
  ident name :: punct "(" :: a ++ [punct ")"]

/-- The result of `STRING(a)`, from `#define STRING(a) #a`. -/
def STRING (fuel : Nat) (a : List PPToken) : Option (List PPToken) :=
  preprocess fuel (invocation "STRING" a)

/-- The result of `STRING_EXPAND(a)`, from `#define STRING_EXPAND(a) STRING(a)`. -/
def STRING_EXPAND (fuel : Nat) (a : List PPToken) : Option (List PPToken) :=
  preprocess fuel (invocation "STRING_EXPAND" a)

/-! ## Basic facts about macro replacement -/

/-- Scanning an empty token sequence needs no fuel. -/
theorem expand_nil (env : List MacroDef) (fuel : Nat) : expand env fuel [] = some [] := by
  cases fuel <;> rfl

/-- With two scanning steps or more, `STRING` applied to one pp-number token
gives the string literal of its spelling. -/
theorem STRING_number (n : Nat) (s : String) (sp : Bool) :
    STRING (n + 2) [⟨TokenKind.ppNumber, s, sp⟩] = some [quoted s] := by
  simp [STRING, preprocess, invocation, expand, ident, punct, quoted, lookup,
    ADLXVersion_h, subst, splice, addHide, setSpace, collectArgs, arityOk, stringify,
    stringifyBody, tokenText, String.join]

/-- With three scanning steps or more, `STRING_EXPAND` applied to one pp-number
token gives the string literal of its spelling. -/
theorem STRING_EXPAND_number (n : Nat) (s : String) (sp : Bool) :
    STRING_EXPAND (n + 3) [⟨TokenKind.ppNumber, s, sp⟩] = some [quoted s] := by
  simp [STRING_EXPAND, preprocess, invocation, expand, ident, punct, quoted, lookup,
    ADLXVersion_h, subst, splice, addHide, setSpace, collectArgs, arityOk, stringify,
    stringifyBody, tokenText, String.join]

/-- With two scanning steps or more, `STRING` applied to one identifier gives
the string literal of the identifier, whether or not it names a macro. -/
theorem STRING_identifier (n : Nat) (s : String) (sp : Bool) :
    STRING (n + 2) [⟨TokenKind.identifier, s, sp⟩] = some [quoted s] := by
  simp [STRING, preprocess, invocation, expand, ident, punct, quoted, lookup,
    ADLXVersion_h, subst, splice, addHide, setSpace, collectArgs, arityOk, stringify,
    stringifyBody, tokenText, String.join]

/-- The table entry of `STRING`. -/
theorem lookup_STRING :
    lookup ADLXVersion_h "STRING" = some ⟨"STRING", some ["a"], [punct "#", ident "a"]⟩ := by
  decide

/-- The table entry of `STRING_EXPAND`. -/
theorem lookup_STRING_EXPAND :
    lookup ADLXVersion_h "STRING_EXPAND" =
      some ⟨"STRING_EXPAND", some ["a"], [ident "STRING", punct "(", ident "a", punct ")"]⟩ := by
  decide

/-- With three scanning steps or more, `STRING_EXPAND` applied to the name of
an object-like macro whose replacement list is the single pp-number `v` gives
the string literal of `v`. -/
theorem STRING_EXPAND_constant (n : Nat) (name v : String) (sp : Bool)
    (h : lookup ADLXVersion_h name = some ⟨name, none, [number v]⟩) :
    STRING_EXPAND (n + 3) [⟨TokenKind.identifier, name, sp⟩] = some [quoted v] := by
  simp [STRING_EXPAND, preprocess, invocation, expand, number, ident, punct, quoted,
    lookup_STRING, lookup_STRING_EXPAND, h, subst, splice, addHide, setSpace, collectArgs,
    arityOk, stringify, stringifyBody, tokenText, String.join]

/-- Parameter substitution keeps its result when the argument expander is
replaced by one that succeeds at least as often with the same results. -/
theorem subst_mono (f g : List HToken → Option (List HToken))
    (hfg : ∀ x r, f x = some r → g x = some r) (fp : Option (List String))
    (args : List (List HToken)) :
    ∀ (k : Nat) (body : List PPToken) (r : List HToken), body.length ≤ k →
      subst f fp args body = some r → subst g fp args body = some r := by
  intro k
  induction k with
  | zero =>
    intro body r hk h
    cases body with
    | nil => simpa [subst] using h
    | cons t rest => simp at hk
  | succ k ih =>
    intro body r hk h
    cases body with
    | nil => simpa [subst] using h
    | cons t rest =>
      have hrest : rest.length ≤ k := by simpa using hk
      cases fp with
      | none =>
        simp only [subst, Option.map_eq_some'] at h ⊢
        obtain ⟨out, hout, rfl⟩ := h
        exact ⟨out, ih rest out hrest hout, rfl⟩
      | some ps =>
        rw [subst.eq_def] at h ⊢
        simp only at h ⊢
        by_cases h1 : t.kind = TokenKind.punctuator ∧ t.spelling = "#"
        · rw [if_pos h1] at h ⊢
          cases rest with
          | nil => simp at h
          | cons p rest1 =>
            simp only at h ⊢
            by_cases h2 : p.kind = TokenKind.identifier ∧ p.spelling ∈ ps
            · rw [if_pos h2] at h ⊢
              simp only [Option.map_eq_some'] at h ⊢
              obtain ⟨out, hout, rfl⟩ := h
              have hlen : rest1.length ≤ k := by
                simp only [List.length_cons] at hrest; omega
              exact ⟨out, ih rest1 out hlen hout, rfl⟩
            · rw [if_neg h2] at h
              simp at h
        · rw [if_neg h1] at h ⊢
          by_cases h3 : t.kind = TokenKind.identifier ∧ t.spelling ∈ ps
          · rw [if_pos h3] at h ⊢
            cases hf : f (args.getD (List.indexOf t.spelling ps) []) with
            | none => rw [hf] at h; simp at h
            | some a =>
              rw [hf] at h
              rw [hfg _ _ hf]
              simp only [Option.map_eq_some'] at h ⊢
              obtain ⟨out, hout, rfl⟩ := h
              exact ⟨out, ih rest out hrest hout, rfl⟩
          · rw [if_neg h3] at h ⊢
            simp only [Option.map_eq_some'] at h ⊢
            obtain ⟨out, hout, rfl⟩ := h
            exact ⟨out, ih rest out hrest hout, rfl⟩


/-- One more scanning step never changes a result already obtained. -/
theorem expand_mono (env : List MacroDef) :
    ∀ (fuel : Nat) (ts r : List HToken),
      expand env fuel ts = some r → expand env (fuel + 1) ts = some r := by
  intro fuel
  induction fuel with
  | zero =>
    intro ts r h
    cases ts with
    | nil => rw [expand_nil] at h ⊢; exact h
    | cons t rest => simp [expand] at h
  | succ n ih =>
    intro ts r h
    cases ts with
    | nil => rw [expand_nil] at h ⊢; exact h
    | cons t rest =>
      rw [expand.eq_def] at h ⊢
      simp only at h ⊢
      by_cases hid : t.tok.kind = TokenKind.identifier ∧ t.tok.spelling ∉ t.hide
      · rw [if_pos hid] at h ⊢
        cases hl : lookup env t.tok.spelling with
        | none =>
          rw [hl] at h
          simp only [Option.map_eq_some'] at h ⊢
          obtain ⟨out, hout, rfl⟩ := h
          exact ⟨out, ih rest out hout, rfl⟩
        | some m =>
          rw [hl] at h
          simp only at h ⊢
          cases hp : m.params with
          | none =>
            rw [hp] at h
            simp only at h ⊢
            cases hs : subst (expand env n) none [] m.body with
            | none => rw [hs] at h; simp at h
            | some repl =>
              rw [hs] at h
              rw [subst_mono _ _ ih none [] _ m.body repl (le_refl _) hs]
              exact ih _ _ h
          | some ps =>
            rw [hp] at h
            simp only at h ⊢
            cases rest with
            | nil => exact h
            | cons lp rest1 =>
              simp only at h ⊢
              by_cases hlp : lp.tok.kind = TokenKind.punctuator ∧ lp.tok.spelling = "("
              · rw [if_pos hlp] at h ⊢
                cases hc : collectArgs rest1 0 [] [] with
                | none => rw [hc] at h; simp at h
                | some res =>
                  obtain ⟨args, rpHide, rest2⟩ := res
                  rw [hc] at h
                  simp only at h ⊢
                  by_cases ha : arityOk ps args = true
                  · rw [if_pos ha] at h ⊢
                    cases hs : subst (expand env n) (some ps) args m.body with
                    | none => rw [hs] at h; simp at h
                    | some repl =>
                      rw [hs] at h
                      rw [subst_mono _ _ ih (some ps) args _ m.body repl (le_refl _) hs]
                      exact ih _ _ h
                  · rw [if_neg ha] at h
                    simp at h
              · rw [if_neg hlp] at h ⊢
                simp only [Option.map_eq_some'] at h ⊢
                obtain ⟨out, hout, rfl⟩ := h
                exact ⟨out, ih _ out hout, rfl⟩
      · rw [if_neg hid] at h ⊢
        simp only [Option.map_eq_some'] at h ⊢
        obtain ⟨out, hout, rfl⟩ := h
        exact ⟨out, ih rest out hout, rfl⟩

/-- A result obtained with some fuel is the result with any larger fuel. -/
theorem expand_mono_le (env : List MacroDef) (fuel fuel2 : Nat) (ts r : List HToken)
    (hle : fuel ≤ fuel2) (h : expand env fuel ts = some r) : expand env fuel2 ts = some r := by
  induction hle with
  | refl => exact h
  | step _ ih => exact expand_mono env _ ts r ih

/-- Under the header's definitions, a result obtained with some fuel is the
result with any larger fuel. -/
theorem preprocess_mono (fuel fuel2 : Nat) (ts r : List PPToken) (hle : fuel ≤ fuel2)
    (h : preprocess fuel ts = some r) : preprocess fuel2 ts = some r := by
  simp only [preprocess, Option.map_eq_some'] at h ⊢
  obtain ⟨out, hout, rfl⟩ := h
  exact ⟨out, expand_mono_le _ fuel fuel2 _ out hle hout, rfl⟩

/-- The result of macro replacement does not depend on the fuel: two runs that
both finish agree. -/
theorem preprocess_unique (fuel fuel2 : Nat) (ts r r2 : List PPToken)
    (h : preprocess fuel ts = some r) (h2 : preprocess fuel2 ts = some r2) : r = r2 := by
  have e := preprocess_mono fuel (max fuel fuel2) ts r (le_max_left _ _) h
  have e2 := preprocess_mono fuel2 (max fuel fuel2) ts r2 (le_max_right _ _) h2
  rw [e] at e2
  exact Option.some.inj e2

/-! ## The claims -/

/-- C1: rendering the four version constants `ADLX_VER_MAJOR`,
`ADLX_VER_MINOR`, `ADLX_VER_RELEASE` and `ADLX_VER_BUILD_NUM` in decimal, in
that order, and joining them with the separator "." gives exactly the string
"1.2.0.72". -/
theorem version_string :
    String.intercalate "."
      ([ADLX_VER_MAJOR, ADLX_VER_MINOR, ADLX_VER_RELEASE, ADLX_VER_BUILD_NUM].map toString)
      = "1.2.0.72" := by
  decide

/-- C2: the version record has the four fields major, minor, release and
build; they are the four value-defining macros of the header, and no other
macro of the header defines a value; each is a non-negative integer constant,
namely 1, 2, 0 and 72. -/
theorem version_record :
    (valueMacros ADLXVersion_h).map (fun m => (m.name, m.body)) =
      [ ("ADLX_VER_MAJOR", [number (toString version.major)]),
        ("ADLX_VER_MINOR", [number (toString version.minor)]),
        ("ADLX_VER_RELEASE", [number (toString version.release)]),
        ("ADLX_VER_BUILD_NUM", [number (toString version.build)]) ] ∧
    version = ⟨1, 2, 0, 72⟩ ∧
    (ADLX_VER_MAJOR = 1 ∧ ADLX_VER_MINOR = 2 ∧ ADLX_VER_RELEASE = 0 ∧ ADLX_VER_BUILD_NUM = 72) ∧
    (0 ≤ version.major ∧ 0 ≤ version.minor ∧ 0 ≤ version.release ∧ 0 ≤ version.build) := by
  decide

/-- C3: given enough scanning steps (three or more), `STRING_EXPAND` applied
to the macro name of a version constant gives the string literal of the
constant's decimal value: "1" for `ADLX_VER_MAJOR`, "2" for `ADLX_VER_MINOR`,
"0" for `ADLX_VER_RELEASE` and "72" for `ADLX_VER_BUILD_NUM`, with or without
white space before the name. -/
theorem string_expand_version_constants (n : Nat) (sp : Bool) :
    (STRING_EXPAND (n + 3) [⟨TokenKind.identifier, "ADLX_VER_MAJOR", sp⟩] = some [quoted "1"] ∧
      toString ADLX_VER_MAJOR = "1") ∧
    (STRING_EXPAND (n + 3) [⟨TokenKind.identifier, "ADLX_VER_MINOR", sp⟩] = some [quoted "2"] ∧
      toString ADLX_VER_MINOR = "2") ∧
    (STRING_EXPAND (n + 3) [⟨TokenKind.identifier, "ADLX_VER_RELEASE", sp⟩] = some [quoted "0"] ∧
      toString ADLX_VER_RELEASE = "0") ∧
    (STRING_EXPAND (n + 3) [⟨TokenKind.identifier, "ADLX_VER_BUILD_NUM", sp⟩] = some [quoted "72"] ∧
      toString ADLX_VER_BUILD_NUM = "72") :=
  ⟨⟨STRING_EXPAND_constant n _ _ sp (by decide), by decide⟩,
   ⟨STRING_EXPAND_constant n _ _ sp (by decide), by decide⟩,
   ⟨STRING_EXPAND_constant n _ _ sp (by decide), by decide⟩,
   ⟨STRING_EXPAND_constant n _ _ sp (by decide), by decide⟩⟩

/-- C4: given enough scanning steps (two or more for `STRING`, three or more
for `STRING_EXPAND`), `STRING` applied to the macro name of a version constant
gives the string literal of the name itself (for `ADLX_VER_BUILD_NUM` it is
"ADLX_VER_BUILD_NUM" and not "72"), which differs from what `STRING_EXPAND`
gives on that name, for each of the four names; and on every pp-number token,
hence on every integer literal (the decimal literal of any natural number `k`
among them), `STRING` and `STRING_EXPAND` give the same string literal, that
of the token's spelling. -/
theorem string_versus_string_expand (n m k : Nat) (sp : Bool) (lit : String) :
    (STRING (n + 2) [⟨TokenKind.identifier, "ADLX_VER_MAJOR", sp⟩]
        = some [quoted "ADLX_VER_MAJOR"] ∧
      STRING (n + 2) [⟨TokenKind.identifier, "ADLX_VER_MAJOR", sp⟩]
        ≠ STRING_EXPAND (m + 3) [⟨TokenKind.identifier, "ADLX_VER_MAJOR", sp⟩]) ∧
    (STRING (n + 2) [⟨TokenKind.identifier, "ADLX_VER_MINOR", sp⟩]
        = some [quoted "ADLX_VER_MINOR"] ∧
      STRING (n + 2) [⟨TokenKind.identifier, "ADLX_VER_MINOR", sp⟩]
        ≠ STRING_EXPAND (m + 3) [⟨TokenKind.identifier, "ADLX_VER_MINOR", sp⟩]) ∧
    (STRING (n + 2) [⟨TokenKind.identifier, "ADLX_VER_RELEASE", sp⟩]
        = some [quoted "ADLX_VER_RELEASE"] ∧
      STRING (n + 2) [⟨TokenKind.identifier, "ADLX_VER_RELEASE", sp⟩]
        ≠ STRING_EXPAND (m + 3) [⟨TokenKind.identifier, "ADLX_VER_RELEASE", sp⟩]) ∧
    (STRING (n + 2) [⟨TokenKind.identifier, "ADLX_VER_BUILD_NUM", sp⟩]
        = some [quoted "ADLX_VER_BUILD_NUM"] ∧
      STRING (n + 2) [⟨TokenKind.identifier, "ADLX_VER_BUILD_NUM", sp⟩]
        ≠ STRING_EXPAND (m + 3) [⟨TokenKind.identifier, "ADLX_VER_BUILD_NUM", sp⟩] ∧
      STRING (n + 2) [⟨TokenKind.identifier, "ADLX_VER_BUILD_NUM", sp⟩]
        ≠ some [quoted "72"]) ∧
    (STRING (n + 2) [⟨TokenKind.ppNumber, lit, sp⟩]
        = STRING_EXPAND (m + 3) [⟨TokenKind.ppNumber, lit, sp⟩] ∧
      STRING (n + 2) [⟨TokenKind.ppNumber, lit, sp⟩] = some [quoted lit]) ∧
    STRING (n + 2) [number (toString k)] = STRING_EXPAND (m + 3) [number (toString k)] := by
  refine ⟨⟨STRING_identifier n _ sp, ?_⟩, ⟨STRING_identifier n _ sp, ?_⟩,
    ⟨STRING_identifier n _ sp, ?_⟩, ⟨STRING_identifier n _ sp, ?_, ?_⟩,
    ⟨?_, STRING_number n lit sp⟩, ?_⟩
  · rw [STRING_identifier, STRING_EXPAND_constant m _ "1" sp (by decide)]; decide
  · rw [STRING_identifier, STRING_EXPAND_constant m _ "2" sp (by decide)]; decide
  · rw [STRING_identifier, STRING_EXPAND_constant m _ "0" sp (by decide)]; decide
  · rw [STRING_identifier, STRING_EXPAND_constant m _ "72" sp (by decide)]; decide
  · rw [STRING_identifier]; decide
  · rw [STRING_number, STRING_EXPAND_number]
  · rw [number, STRING_number, STRING_EXPAND_number]

end ADLXVersion
